import Mathlib

/-!
Verification development for the soledit repository: a shallow embedding of
the .sol container codec and the AMF0 value codec from src/lib.rs, and of the
editor traversal from src/bin/soledit.rs, with theorems about the byte-level
read and write paths.

Rust byte buffers are `List Nat` with every element below 256; machine
integer truncation (`as u16`, `as u32`) is modelled with explicit `% 2 ^ 16`
and `% 2 ^ 32`. An f64 is carried as its raw 64-bit IEEE-754 pattern, since
read_f64 and write_f64 in the source move those 8 bytes verbatim. Rust
strings are carried as their UTF-8 byte contents. A Rust panic (assert!,
unwrap, panic!, todo!) is modelled as `Except.error` holding a `Panic`
value naming the panic site; it denotes a process abort, not an Err return.
-/

set_option autoImplicit false

namespace Soledit

/-- Big-endian value of a byte list, most significant byte first. -/
def beVal (bs : List Nat) : Nat := bs.foldl (fun a b => a * 256 + b) 0

/-- Big-endian byte list of width k holding n modulo 256 ^ k. This is the
truncation write_u16 and write_u32 perform through the Rust `as` casts in
the source. -/
def beBytes : Nat → Nat → List Nat
  | 0, _ => []
  | k + 1, n => beBytes k (n / 256) ++ [n % 256]

/-- UTF-8 validity of a byte list, as checked by std str from_utf8:
ASCII, two-byte forms C2..DF, three-byte forms with the overlong and
surrogate exclusions on E0 and ED, four-byte forms with the exclusions on
F0 and F4, continuation bytes in 80..BF. -/
def utf8Valid : List Nat → Bool
  | [] => true
  | b0 :: r =>
    if b0 ≤ 0x7F then utf8Valid r
    else match r with
    | [] => false
    | b1 :: r1 =>
      if 0xC2 ≤ b0 ∧ b0 ≤ 0xDF then
        decide (0x80 ≤ b1 ∧ b1 ≤ 0xBF) && utf8Valid r1
      else match r1 with
      | [] => false
      | b2 :: r2 =>
        if b0 = 0xE0 then
          decide (0xA0 ≤ b1 ∧ b1 ≤ 0xBF) && decide (0x80 ≤ b2 ∧ b2 ≤ 0xBF) &&
            utf8Valid r2
        else if 0xE1 ≤ b0 ∧ b0 ≤ 0xEC then
          decide (0x80 ≤ b1 ∧ b1 ≤ 0xBF) && decide (0x80 ≤ b2 ∧ b2 ≤ 0xBF) &&
            utf8Valid r2
        else if b0 = 0xED then
          decide (0x80 ≤ b1 ∧ b1 ≤ 0x9F) && decide (0x80 ≤ b2 ∧ b2 ≤ 0xBF) &&
            utf8Valid r2
        else if 0xEE ≤ b0 ∧ b0 ≤ 0xEF then
          decide (0x80 ≤ b1 ∧ b1 ≤ 0xBF) && decide (0x80 ≤ b2 ∧ b2 ≤ 0xBF) &&
            utf8Valid r2
        else match r2 with
        | [] => false
        | b3 :: r3 =>
          if b0 = 0xF0 then
            decide (0x90 ≤ b1 ∧ b1 ≤ 0xBF) && decide (0x80 ≤ b2 ∧ b2 ≤ 0xBF) &&
              decide (0x80 ≤ b3 ∧ b3 ≤ 0xBF) && utf8Valid r3
          else if 0xF1 ≤ b0 ∧ b0 ≤ 0xF3 then
            decide (0x80 ≤ b1 ∧ b1 ≤ 0xBF) && decide (0x80 ≤ b2 ∧ b2 ≤ 0xBF) &&
              decide (0x80 ≤ b3 ∧ b3 ≤ 0xBF) && utf8Valid r3
          else if b0 = 0xF4 then
            decide (0x80 ≤ b1 ∧ b1 ≤ 0x8F) && decide (0x80 ≤ b2 ∧ b2 ≤ 0xBF) &&
              decide (0x80 ≤ b3 ∧ b3 ≤ 0xBF) && utf8Valid r3
          else false

/-- Key/value entry, mirroring the amf crate type Pair with String keys held
as UTF-8 byte lists (the source aliases Pair of T to amf Pair String T). -/
structure Pair (V : Type) where
  key : List Nat
  value : V
deriving DecidableEq

/-- AMF0 value tree, mirroring Amf0Value in lib.rs. Num holds the raw 64-bit
IEEE-754 pattern of the f64; String holds the UTF-8 bytes of the Rust
String; Object holds the ordered member pair list. -/
inductive Amf0Value : Type where
  | num (bits : Nat)
  | bool (b : Bool)
  | str (s : List Nat)
  | object (pairs : List (Pair Amf0Value))

/-- Amf0Value type_ in lib.rs: the wire type tag of a value
(NUM 0, BOOL 1, STRING 2, OBJECT 3). -/
def Amf0Value.type_ : Amf0Value → Nat
  | .num _ => 0
  | .bool _ => 1
  | .str _ => 2
  | .object _ => 3

/-- Rust panic sites reached by the source code. An `Except.error` holding
one of these models a process abort (assert!, unwrap, panic!, todo!), not an
Err return of the enclosing Result type. -/
inductive Panic : Type where
  | eof
  | unsupportedFormat
  | malformedHeader
  | assertFail
  | utf8
  | unknownVersion
  | unexpectedType (t : Nat)
  | todoObject
  | todoUi
  | fuelOut
deriving DecidableEq

def BF_MAGIC : List Nat := [0x00, 0xBF]

def TCSO_MAGIC : List Nat := [0x54, 0x43, 0x53, 0x4F]

def TAIL_MAGIC : List Nat := [0x00, 0x04, 0x00, 0x00, 0x00, 0x00]

/-- write_key_and_type in lib.rs: 16-bit BE key length (truncated by the
`as u16` cast), the raw key bytes, then the type tag of the value. -/
def write_key_and_type (p : Pair Amf0Value) : List Nat :=
  beBytes 2 p.key.length ++ p.key ++ [p.value.type_]

/-- write_value in lib.rs. The Object arm of the source is todo!(), so
encoding any Object value panics. The String arm writes the length through
an `as u16` cast (here beBytes 2, which truncates mod 2 ^ 16) and then all
of the bytes, with no length check anywhere. -/
def write_value : Amf0Value → Except Panic (List Nat)
  | .num bits => .ok (beBytes 8 bits)
  | .bool b => .ok [if b then 1 else 0]
  | .str s => .ok (beBytes 2 s.length ++ s)
  | .object _ => .error .todoObject

/-- Body loop of the AmfWrite impl for Sol of Amf0 (write_amf in lib.rs):
for each pair, the key record and tag, the value payload, then one zero
padding byte. -/
def write_amf0_body : List (Pair Amf0Value) → Except Panic (List Nat)
  | [] => .ok []
  | p :: rest => do
    let v ← write_value p.value
    let r ← write_amf0_body rest
    .ok (write_key_and_type p ++ v ++ [0] ++ r)

/-- Overwrite four bytes at position pos with the 32-bit BE encoding of v,
modelling seek(SeekFrom::Start(pos)) followed by write_u32. -/
def patchU32 (l : List Nat) (pos v : Nat) : List Nat :=
  l.take pos ++ beBytes 4 v ++ l.drop (pos + 4)

/-- Sol write for the Amf0 version in lib.rs: magic, a zero length
placeholder at offset 2, type marker, tail, root-name record, three zero
bytes plus the version id byte (0 for Amf0), then the body; finally the
length field is patched with the end position minus 6, cast to u32. -/
def solWriteAmf0 (rootName : List Nat) (pairs : List (Pair Amf0Value)) :
    Except Panic (List Nat) := do
  let body ← write_amf0_body pairs
  let full := BF_MAGIC ++ beBytes 4 0 ++ TCSO_MAGIC ++ TAIL_MAGIC ++
    beBytes 2 rootName.length ++ rootName ++ [0, 0, 0] ++ [0] ++ body
  .ok (patchU32 full 2 (full.length - 6))

/-- Cursor read_exact over the in-memory buffer: n bytes starting at pos,
or the UnexpectedEof panic of the unwrap when the buffer is exhausted. -/
def readExact (data : List Nat) (pos n : Nat) : Except Panic (List Nat × Nat) :=
  if pos + n ≤ data.length then .ok ((data.drop pos).take n, pos + n)
  else .error .eof

/-- Big-endian fixed-width read (read_u8, read_u16, read_u32, read_f64 in
the source, the last returning the raw bit pattern). -/
def readBE (data : List Nat) (pos n : Nat) : Except Panic (Nat × Nat) := do
  let (chunk, pos) ← readExact data pos n
  .ok (beVal chunk, pos)

/-- read_key_and_type in lib.rs: 16-bit key length, the key bytes (the
from_utf8 unwrap panics on invalid UTF-8), then the type tag byte. -/
def read_key_and_type (data : List Nat) (pos : Nat) :
    Except Panic ((List Nat × Nat) × Nat) := do
  let (keyLen, pos) ← readBE data pos 2
  let (key, pos) ← readExact data pos keyLen
  if utf8Valid key then
    let (t, pos) ← readBE data pos 1
    .ok ((key, t), pos)
  else .error .utf8

mutual

/-- read_value in lib.rs, with the cursor passed explicitly and a fuel
argument bounding the recursion (in the source the recursion is bounded by
cursor progress over the finite buffer; fuelOut is unreachable whenever
fuel exceeds the number of bytes remaining). -/
def read_value : Nat → Nat → List Nat → Nat → Except Panic (Amf0Value × Nat)
  | 0, _, _, _ => .error .fuelOut
  | fuel + 1, t, data, pos =>
    if t = 0 then do
      let (bits, pos) ← readBE data pos 8
      .ok (.num bits, pos)
    else if t = 1 then do
      let (m, pos) ← readBE data pos 1
      .ok (.bool (m != 0), pos)
    else if t = 2 then do
      let (len, pos) ← readBE data pos 2
      let (buf, pos) ← readExact data pos len
      if utf8Valid buf then .ok (.str buf, pos) else .error .utf8
    else if t = 3 then
      readObjPairs fuel data pos []
    else .error (.unexpectedType t)

/-- Loop of the OBJECT arm of read_value: read a key record and a tag; tag 9
is the sentinel that ends the object (the accumulated pairs are returned and
the sentinel is consumed, not stored); any other tag is decoded as the value
of the next member pair. No padding byte is read between members. -/
def readObjPairs : Nat → List Nat → Nat → List (Pair Amf0Value) →
    Except Panic (Amf0Value × Nat)
  | 0, _, _, _ => .error .fuelOut
  | fuel + 1, data, pos, acc => do
    let ((key, t), pos) ← read_key_and_type data pos
    if t = 9 then .ok (.object acc, pos)
    else do
      let (v, pos) ← read_value fuel t data pos
      readObjPairs fuel data pos (acc ++ [⟨key, v⟩])

end

/-- read_amf0 in lib.rs: the top-level pair loop. It stops exactly when the
cursor position minus 6 equals the declared length; otherwise it reads a key
record, a value, pushes the pair, then reads and discards one padding byte.
The source computes position minus 6 in u64; the cursor position is at
least 22 whenever this function runs, so Nat subtraction is faithful. -/
def read_amf0 : Nat → List Nat → Nat → Nat → List (Pair Amf0Value) →
    Except Panic (List (Pair Amf0Value))
  | 0, _, _, _, _ => .error .fuelOut
  | fuel + 1, data, pos, len, acc =>
    if pos - 6 = len then .ok acc
    else do
      let ((key, t), pos) ← read_key_and_type data pos
      let (v, pos) ← read_value fuel t data pos
      let acc := acc ++ [⟨key, v⟩]
      let (_padding, pos) ← readBE data pos 1
      read_amf0 fuel data pos len acc

/-- Version selector, mirroring AmfVerSpec in lib.rs. -/
inductive AmfVerSpec : Type where
  | amf0
  | amf3

/-- amf_ver_spec in lib.rs: dispatch on the final byte of the 4-byte version
blob (Amf0 id 0, Amf3 id 3, anything else None). -/
def amf_ver_spec (blob : List Nat) : Option AmfVerSpec :=
  if blob.getD 3 0 = 0 then some .amf0
  else if blob.getD 3 0 = 3 then some .amf3
  else none

/-- Result of read_from_file: a Sol of Amf0 with its fields, or the Amf3
case. Modelled from the spec: the AMF3 value decoding is delegated to the
external amf crate (an external collaborator outside this repository), so
the amf3 constructor records exactly what read_from_file hands over: the
declared length, the root name, the cursor position after the version blob,
and the remaining bytes from that position. -/
inductive SolVariantE : Type where
  | amf0 (len : Nat) (rootName : List Nat) (rootObject : List (Pair Amf0Value))
  | amf3 (len : Nat) (rootName : List Nat) (pos : Nat) (rest : List Nat)

/-- read_from_file in lib.rs, from the point where the file bytes are in
memory: magic check, declared length, type marker and tail checks, root-name
record, version blob, then dispatch. The three assert_eq calls on the blob
execute on the still-zero-initialized array, before read_exact fills it, so
they compare 0 with 0 and always pass: the first three bytes of the version
block are never validated. -/
def readSol (data : List Nat) : Except Panic SolVariantE := do
  let (magic, pos) ← readExact data 0 2
  if magic = BF_MAGIC then pure () else throw .unsupportedFormat
  let (len, pos) ← readBE data pos 4
  let (type_, pos) ← readExact data pos 4
  if type_ = TCSO_MAGIC then pure () else throw .malformedHeader
  let (tail, pos) ← readExact data pos 6
  if tail = TAIL_MAGIC then pure () else throw .malformedHeader
  let (rootNameLen, pos) ← readBE data pos 2
  let (rootName, pos) ← readExact data pos rootNameLen
  if utf8Valid rootName then pure () else throw .utf8
  let blob0 : List Nat := [0, 0, 0, 0]
  if blob0.getD 0 0 = 0 then pure () else throw .assertFail
  if blob0.getD 1 0 = 0 then pure () else throw .assertFail
  if blob0.getD 2 0 = 0 then pure () else throw .assertFail
  let (blob, pos) ← readExact data pos 4
  match amf_ver_spec blob with
  | some .amf0 =>
    (read_amf0 (data.length + 1) data pos len []).map
      (fun pairs => .amf0 len rootName pairs)
  | some .amf3 => .ok (.amf3 len rootName pos (data.drop pos))
  | none => .error .unknownVersion

mutual

/-- Byte layout of one AMF0 value exactly as read_value consumes it (derived
from the decode arms in lib.rs): 8 BE bytes for Num, one marker byte for
Bool, length-prefixed bytes for String, and for Object the member records
followed by the sentinel record 00 00 09 (empty key, tag 9). For the flat
variants this coincides with what write_value emits. -/
def encV : Amf0Value → List Nat
  | .num bits => beBytes 8 bits
  | .bool b => [if b then 1 else 0]
  | .str s => beBytes 2 s.length ++ s
  | .object ps => encPairs ps ++ [0, 0, 9]

/-- Byte layout of an object member list as the OBJECT loop of read_value
consumes it: key length, key bytes, type tag, payload for each member, with
no padding byte between members. -/
def encPairs : List (Pair Amf0Value) → List Nat
  | [] => []
  | ⟨k, v⟩ :: rest =>
    beBytes 2 k.length ++ k ++ [v.type_] ++ encV v ++ encPairs rest

end

mutual

/-- Well-formedness every document built from Rust values satisfies by
construction: f64 bit patterns fit 64 bits, every string and key is valid
UTF-8 (Rust String) and fits the 16-bit wire length field. -/
def wfV : Amf0Value → Bool
  | .num bits => decide (bits < 2 ^ 64)
  | .bool _ => true
  | .str s => utf8Valid s && decide (s.length ≤ 65535)
  | .object ps => wfPairs ps

/-- Well-formedness of a pair list: every key is valid UTF-8 and fits the
16-bit length field, and every value is well formed. -/
def wfPairs : List (Pair Amf0Value) → Bool
  | [] => true
  | ⟨k, v⟩ :: rest =>
    utf8Valid k && decide (k.length ≤ 65535) && wfV v && wfPairs rest

end

/-- Flat values are the ones the source encoder supports (its Object arm is
todo!()). -/
def isFlat : Amf0Value → Bool
  | .object _ => false
  | _ => true

/-- Byte layout of the top-level value-list body as written by write_amf and
consumed by read_amf0: key record, tag, payload and one zero padding byte
per pair. -/
def flatBody : List (Pair Amf0Value) → List Nat
  | [] => []
  | ⟨k, v⟩ :: rest =>
    beBytes 2 k.length ++ k ++ [v.type_] ++ encV v ++ [0] ++ flatBody rest

/-- Rust str contains with a str pattern: byte-level substring test (for
valid UTF-8 haystack and needle every byte-level match is char aligned, so
this is the substring relation the filter box uses). -/
def containsSub (hay needle : List Nat) : Bool :=
  (List.range (hay.length + 1)).any fun i => needle.isPrefixOf (hay.drop i)

/-- Editor widget effects for the Amf0 editor (ui_amf0 in soledit.rs).
Modelled from the spec: the egui widgets are the external presentation
layer, so each editable slot is an arbitrary update function supplied by the
environment (text edit on the key, DragValue on the f64 bits, checkbox on
the bool, text edit on the string). -/
structure EditOps0 where
  editKey : List Nat → List Nat
  editNum : Nat → Nat
  editBool : Bool → Bool
  editStr : List Nat → List Nat

/-- Value match arm of the ui_amf0 loop body: DragValue on Num, checkbox on
Bool, text edit on String, todo!() on Object. -/
def editValue0 (ops : EditOps0) : Amf0Value → Except Panic Amf0Value
  | .num n => .ok (.num (ops.editNum n))
  | .bool b => .ok (.bool (ops.editBool b))
  | .str s => .ok (.str (ops.editStr s))
  | .object _ => .error Panic.todoUi

/-- ui_amf0 in soledit.rs: walk the pair slice in order; a pair whose key
does not contain the filter string is skipped by continue and kept
unchanged; a visited pair has its key and value edited in place by the
widgets; a visited Object value hits todo!() and panics. -/
def ui_amf0 (ops : EditOps0) (fs : List Nat) :
    List (Pair Amf0Value) → Except Panic (List (Pair Amf0Value))
  | [] => .ok []
  | p :: rest =>
    if ¬ containsSub p.key fs then
      (ui_amf0 ops fs rest).map (fun r => p :: r)
    else do
      let key := ops.editKey p.key
      let value ← editValue0 ops p.value
      let rest2 ← ui_amf0 ops fs rest
      .ok (⟨key, value⟩ :: rest2)

/-- AMF3 value tree of the external amf crate, mirrored from its public enum
as matched in soledit.rs (an external collaborator type: doubles are carried
as bit patterns, strings as UTF-8 bytes, dates as seconds and nanoseconds of
the Duration). -/
inductive Amf3Value : Type where
  | undefined
  | null
  | boolean (b : Bool)
  | integer (n : Int)
  | double (bits : Nat)
  | string (s : List Nat)
  | xmlDocument (s : List Nat)
  | date (secs nanos : Nat)
  | array (assocEntries : List (Pair Amf3Value)) (denseEntries : List Amf3Value)
  | object (className : Option (List Nat)) (sealedCount : Nat)
      (entries : List (Pair Amf3Value))
  | xml (s : List Nat)
  | byteArray (bytes : List Nat)
  | intVector (isFixed : Bool) (entries : List Int)
  | uintVector (isFixed : Bool) (entries : List Nat)
  | doubleVector (isFixed : Bool) (entries : List Nat)
  | objectVector (className : Option (List Nat)) (isFixed : Bool)
      (entries : List Amf3Value)
  | dictionary (isWeak : Bool) (entries : List (Amf3Value × Amf3Value))

/-- Editor widget effects for the Amf3 editor (ui_amf3 in soledit.rs),
modelled from the spec like EditOps0: checkbox on booleans, DragValue on
integers and on the double bits, text edits on the key and string. -/
structure EditOps3 where
  editKey : List Nat → List Nat
  editBool : Bool → Bool
  editInt : Int → Int
  editDouble : Nat → Nat
  editStr : List Nat → List Nat

/-- Value match arm of the ui_amf3 loop body: label-only arms (Null, Date,
Array, Object) keep the value unchanged; Boolean, Integer, Double and
String are edited; every other variant is a todo!() arm that panics when
visited. -/
def editValue3 (ops : EditOps3) : Amf3Value → Except Panic Amf3Value
  | .undefined => .error Panic.todoUi
  | .null => .ok Amf3Value.null
  | .boolean b => .ok (Amf3Value.boolean (ops.editBool b))
  | .integer n => .ok (Amf3Value.integer (ops.editInt n))
  | .double n => .ok (Amf3Value.double (ops.editDouble n))
  | .string s => .ok (Amf3Value.string (ops.editStr s))
  | .xmlDocument _ => .error Panic.todoUi
  | .date s n => .ok (Amf3Value.date s n)
  | .array a d => .ok (Amf3Value.array a d)
  | .object c sc e => .ok (Amf3Value.object c sc e)
  | .xml _ => .error Panic.todoUi
  | .byteArray _ => .error Panic.todoUi
  | .intVector _ _ => .error Panic.todoUi
  | .uintVector _ _ => .error Panic.todoUi
  | .doubleVector _ _ => .error Panic.todoUi
  | .objectVector _ _ _ => .error Panic.todoUi
  | .dictionary _ _ => .error Panic.todoUi

/-- ui_amf3 in soledit.rs: same skip-by-filter walk as ui_amf0. -/
def ui_amf3 (ops : EditOps3) (fs : List Nat) :
    List (Pair Amf3Value) → Except Panic (List (Pair Amf3Value))
  | [] => .ok []
  | p :: rest =>
    if ¬ containsSub p.key fs then
      (ui_amf3 ops fs rest).map (fun r => p :: r)
    else do
      let key := ops.editKey p.key
      let value ← editValue3 ops p.value
      let rest2 ← ui_amf3 ops fs rest
      .ok (⟨key, value⟩ :: rest2)

theorem bind_ok_eq {α β : Type} (a : α) (f : α → Except Panic β) :
    (Except.ok a : Except Panic α) >>= f = f a := rfl

theorem bind_error_eq {α β : Type} (e : Panic) (f : α → Except Panic β) :
    (Except.error e : Except Panic α) >>= f = .error e := rfl

theorem map_ok_eq {α β : Type} (a : α) (f : α → β) :
    (Except.ok a : Except Panic α).map f = .ok (f a) := rfl

theorem map_error_eq {α β : Type} (e : Panic) (f : α → β) :
    (Except.error e : Except Panic α).map f = .error e := rfl

theorem beBytes_length (k n : Nat) : (beBytes k n).length = k := by
  induction k generalizing n with
  | zero => rfl
  | succ k ih => simp [beBytes, ih]

theorem beVal_append_singleton (xs : List Nat) (b : Nat) :
    beVal (xs ++ [b]) = beVal xs * 256 + b := by
  simp [beVal, List.foldl_append]

theorem beVal_beBytes (k n : Nat) : beVal (beBytes k n) = n % 256 ^ k := by
  induction k generalizing n with
  | zero => simp [beBytes, beVal, Nat.mod_one]
  | succ k ih =>
    rw [beBytes, beVal_append_singleton, ih]
    have h256 : (256 : Nat) ^ (k + 1) = 256 * 256 ^ k := by ring
    rw [h256, Nat.mod_mul]
    omega

theorem beVal_singleton (b : Nat) : beVal [b] = b := by
  simp [beVal]

/-- One successful read_exact step: when the bytes from pos start with chunk,
the read returns chunk, the cursor advances by its length, and the remaining
bytes are rest. -/
theorem readExact_step (data chunk rest : List Nat) (pos : Nat)
    (h : data.drop pos = chunk ++ rest) (hpos : pos ≤ data.length) :
    readExact data pos chunk.length = .ok (chunk, pos + chunk.length) ∧
      data.drop (pos + chunk.length) = rest ∧
      pos + chunk.length ≤ data.length := by
  have hlen : data.length - pos = chunk.length + rest.length := by
    have h1 := congrArg List.length h
    simpa using h1
  have hle : pos + chunk.length ≤ data.length := by omega
  have hdrop : data.drop (pos + chunk.length) = rest := by
    rw [← List.drop_drop, h, List.drop_left]
  refine ⟨?_, hdrop, hle⟩
  unfold readExact
  rw [if_pos hle, h, List.take_left]

/-- One successful big-endian fixed-width read of a chunk already in byte
form. -/
theorem readBE_chunk (data chunk rest : List Nat) (pos : Nat)
    (h : data.drop pos = chunk ++ rest) (hpos : pos ≤ data.length) :
    readBE data pos chunk.length = .ok (beVal chunk, pos + chunk.length) ∧
      data.drop (pos + chunk.length) = rest ∧
      pos + chunk.length ≤ data.length := by
  obtain ⟨h1, h2, h3⟩ := readExact_step data chunk rest pos h hpos
  refine ⟨?_, h2, h3⟩
  simp only [readBE, h1, bind_ok_eq]

/-- One successful big-endian fixed-width read of the encoding of v. -/
theorem readBE_step (data rest : List Nat) (pos n v : Nat)
    (h : data.drop pos = beBytes n v ++ rest) (hpos : pos ≤ data.length)
    (hv : v < 256 ^ n) :
    readBE data pos n = .ok (v, pos + n) ∧
      data.drop (pos + n) = rest ∧ pos + n ≤ data.length := by
  obtain ⟨h1, h2, h3⟩ := readBE_chunk data (beBytes n v) rest pos h hpos
  rw [beBytes_length] at h1 h2 h3
  rw [beVal_beBytes, Nat.mod_eq_of_lt hv] at h1
  exact ⟨h1, h2, h3⟩

/-- One successful read of a key record and type tag laid out on the wire. -/
theorem read_key_and_type_step (data key rest : List Nat) (pos t : Nat)
    (h : data.drop pos = beBytes 2 key.length ++ key ++ [t] ++ rest)
    (hpos : pos ≤ data.length) (hk : utf8Valid key = true)
    (hkl : key.length ≤ 65535) (ht : t < 256) :
    read_key_and_type data pos = .ok ((key, t), pos + 3 + key.length) ∧
      data.drop (pos + 3 + key.length) = rest ∧
      pos + 3 + key.length ≤ data.length := by
  have h0 : data.drop pos = beBytes 2 key.length ++ (key ++ [t] ++ rest) := by
    simpa [List.append_assoc] using h
  obtain ⟨h1, h2, h3⟩ := readBE_step data (key ++ [t] ++ rest) pos 2 key.length h0 hpos
    (by norm_num; omega)
  have h4 : data.drop (pos + 2) = key ++ ([t] ++ rest) := by
    simpa [List.append_assoc] using h2
  obtain ⟨h5, h6, h7⟩ := readExact_step data key ([t] ++ rest) (pos + 2) h4 h3
  have h8 : data.drop (pos + 2 + key.length) = beBytes 1 t ++ rest := by
    have : beBytes 1 t = [t] := by simp [beBytes, Nat.mod_eq_of_lt ht]
    rw [this]; exact h6
  obtain ⟨h9, h10, h11⟩ := readBE_step data rest (pos + 2 + key.length) 1 t h8 h7
    (by simpa using ht)
  have harith : pos + 2 + key.length + 1 = pos + 3 + key.length := by omega
  rw [harith] at h9 h10 h11
  constructor
  · simp only [read_key_and_type, h1, bind_ok_eq, h5, hk, if_true, h9]
  · exact ⟨h10, h11⟩

theorem type_lt (v : Amf0Value) : v.type_ < 256 := by
  cases v <;> simp [Amf0Value.type_]

theorem type_ne_nine (v : Amf0Value) : v.type_ ≠ 9 := by
  cases v <;> simp [Amf0Value.type_]

theorem encV_len_pos (v : Amf0Value) : 1 ≤ (encV v).length := by
  cases v with
  | num bits => simp [encV, beBytes_length]
  | bool b => simp [encV]
  | str s => simp only [encV, List.length_append, beBytes_length]; omega
  | object ps =>
    simp only [encV, List.length_append, List.length_cons, List.length_nil]
    omega

theorem encPairs_cons_length (k : List Nat) (v : Amf0Value)
    (rest : List (Pair Amf0Value)) :
    (encPairs (⟨k, v⟩ :: rest)).length =
      3 + k.length + (encV v).length + (encPairs rest).length := by
  simp [encPairs, beBytes_length]
  omega

/-- Decoder correctness against the wire layout, by induction on fuel: a
value laid out at the cursor decodes to itself with the cursor advanced past
its bytes, and an object member list followed by the sentinel record decodes
to exactly those members with the sentinel consumed and the cursor left
immediately after it. -/
theorem read_value_encV (fuel : Nat) :
    (∀ v : Amf0Value, wfV v = true → ∀ (data rest : List Nat) (pos : Nat),
      data.drop pos = encV v ++ rest → pos ≤ data.length →
      (encV v).length < fuel →
      read_value fuel v.type_ data pos = .ok (v, pos + (encV v).length)) ∧
    (∀ ps : List (Pair Amf0Value), wfPairs ps = true →
      ∀ (acc : List (Pair Amf0Value)) (data rest : List Nat) (pos : Nat),
      data.drop pos = encPairs ps ++ [0, 0, 9] ++ rest → pos ≤ data.length →
      (encPairs ps).length + 3 ≤ fuel →
      readObjPairs fuel data pos acc =
        .ok (.object (acc ++ ps), pos + (encPairs ps).length + 3)) := by
  induction fuel with
  | zero =>
    constructor
    · intro v _ data rest pos _ _ hfuel
      omega
    · intro ps _ acc data rest pos _ _ hfuel
      omega
  | succ fuel ih =>
    constructor
    · intro v hwf data rest pos h hpos hfuel
      cases v with
      | num bits =>
        simp only [wfV, decide_eq_true_eq] at hwf
        simp only [encV] at h ⊢
        obtain ⟨h1, _, _⟩ := readBE_step data rest pos 8 bits h hpos
          (by norm_num at hwf ⊢; omega)
        simp [Amf0Value.type_, read_value, h1, bind_ok_eq, beBytes_length]
      | bool b =>
        simp only [encV] at h ⊢
        obtain ⟨h1, _, _⟩ := readBE_chunk data [if b then 1 else 0] rest pos h hpos
        simp only [List.length_cons, List.length_nil] at h1
        rw [beVal_singleton] at h1
        simp only [Amf0Value.type_, read_value, h1, bind_ok_eq]
        cases b <;> simp
      | str s =>
        simp only [wfV, Bool.and_eq_true, decide_eq_true_eq] at hwf
        obtain ⟨hvu, hvl⟩ := hwf
        simp only [encV] at h ⊢
        rw [List.append_assoc] at h
        obtain ⟨h1, h2, h3⟩ := readBE_step data (s ++ rest) pos 2 s.length h hpos
          (by norm_num; omega)
        obtain ⟨h4, h5, h6⟩ := readExact_step data s rest (pos + 2) h2 h3
        simp only [Amf0Value.type_, read_value, h1, bind_ok_eq, h4, hvu, if_true,
          beBytes_length, List.length_append]
        simp
        omega
      | object ps =>
        simp only [wfV] at hwf
        simp only [encV] at h hfuel ⊢
        have hb := ih.2 ps hwf [] data rest pos h hpos
          (by simp only [List.length_append, List.length_cons,
            List.length_nil] at hfuel; omega)
        simp only [Amf0Value.type_, read_value, hb, List.nil_append,
          List.length_append, List.length_cons, List.length_nil]
        simp
        omega
    · intro ps hwf acc data rest pos h hpos hfuel
      cases ps with
      | nil =>
        simp only [encPairs, List.nil_append] at h
        have h9 : data.drop pos =
            beBytes 2 (List.length ([] : List Nat)) ++ [] ++ [9] ++ rest := by
          simpa [beBytes] using h
        obtain ⟨h1, _, _⟩ := read_key_and_type_step data [] rest pos 9 h9 hpos rfl
          (by simp) (by omega)
        simp only [List.length_nil] at h1
        simp only [readObjPairs, h1, bind_ok_eq, encPairs]
        simp
      | cons p rest' =>
        obtain ⟨k, v⟩ := p
        simp only [wfPairs, Bool.and_eq_true, decide_eq_true_eq] at hwf
        obtain ⟨⟨⟨hku, hkl⟩, hv⟩, hrest⟩ := hwf
        simp only [encPairs] at h
        rw [show (beBytes 2 k.length ++ k ++ [v.type_] ++ encV v ++ encPairs rest') ++
              [0, 0, 9] ++ rest =
            beBytes 2 k.length ++ k ++ [v.type_] ++
              (encV v ++ (encPairs rest' ++ [0, 0, 9] ++ rest)) by
          simp [List.append_assoc]] at h
        obtain ⟨h1, h2, h3⟩ := read_key_and_type_step data k
          (encV v ++ (encPairs rest' ++ [0, 0, 9] ++ rest)) pos v.type_ h hpos hku hkl
          (type_lt v)
        have heL := encV_len_pos v
        have hclen := encPairs_cons_length k v rest'
        have hvfuel : (encV v).length < fuel := by omega
        have hva := ih.1 v hv data (encPairs rest' ++ [0, 0, 9] ++ rest)
          (pos + 3 + k.length) h2 h3 hvfuel
        obtain ⟨_, h5, h6⟩ := readExact_step data (encV v)
          (encPairs rest' ++ [0, 0, 9] ++ rest) (pos + 3 + k.length) h2 h3
        have hrfuel : (encPairs rest').length + 3 ≤ fuel := by omega
        have hob := ih.2 rest' hrest (acc ++ [⟨k, v⟩]) data rest
          (pos + 3 + k.length + (encV v).length) h5 h6 hrfuel
        simp only [readObjPairs, h1, bind_ok_eq, if_neg (type_ne_nine v), hva, hob]
        have hlist : (acc ++ [(⟨k, v⟩ : Pair Amf0Value)]) ++ rest' =
            acc ++ ⟨k, v⟩ :: rest' := by simp
        have hpos2 : pos + 3 + k.length + (encV v).length +
            (encPairs rest').length + 3 =
            pos + (encPairs (⟨k, v⟩ :: rest')).length + 3 := by
          rw [hclen]; omega
        rw [hlist, hpos2]

/-- Decoding one flat value (the variants the source encoder supports) needs
no recursion, hence any positive fuel. -/
theorem read_value_flat (v : Amf0Value) (hwf : wfV v = true)
    (hfl : isFlat v = true) (data rest : List Nat) (pos fuel : Nat)
    (h : data.drop pos = encV v ++ rest) (hpos : pos ≤ data.length)
    (hfuel : 1 ≤ fuel) :
    read_value fuel v.type_ data pos = .ok (v, pos + (encV v).length) := by
  cases fuel with
  | zero => omega
  | succ f =>
    cases v with
    | num bits =>
      simp only [wfV, decide_eq_true_eq] at hwf
      simp only [encV] at h ⊢
      obtain ⟨h1, _, _⟩ := readBE_step data rest pos 8 bits h hpos
        (by norm_num at hwf ⊢; omega)
      simp [Amf0Value.type_, read_value, h1, bind_ok_eq, beBytes_length]
    | bool b =>
      simp only [encV] at h ⊢
      obtain ⟨h1, _, _⟩ := readBE_chunk data [if b then 1 else 0] rest pos h hpos
      simp only [List.length_cons, List.length_nil] at h1
      rw [beVal_singleton] at h1
      simp only [Amf0Value.type_, read_value, h1, bind_ok_eq]
      cases b <;> simp
    | str s =>
      simp only [wfV, Bool.and_eq_true, decide_eq_true_eq] at hwf
      obtain ⟨hvu, hvl⟩ := hwf
      simp only [encV] at h ⊢
      rw [List.append_assoc] at h
      obtain ⟨h1, h2, h3⟩ := readBE_step data (s ++ rest) pos 2 s.length h hpos
        (by norm_num; omega)
      obtain ⟨h4, _, _⟩ := readExact_step data s rest (pos + 2) h2 h3
      simp only [Amf0Value.type_, read_value, h1, bind_ok_eq, h4, hvu, if_true,
        beBytes_length, List.length_append]
      simp
      omega
    | object ps => simp [isFlat] at hfl

theorem write_value_flat (v : Amf0Value) (hfl : isFlat v = true) :
    write_value v = .ok (encV v) := by
  cases v with
  | num bits => rfl
  | bool b => rfl
  | str s => rfl
  | object ps => simp [isFlat] at hfl

/-- On a pair list with only flat values the source body writer succeeds and
produces the flat body layout. -/
theorem write_amf0_body_flat (ps : List (Pair Amf0Value))
    (hfl : ∀ p ∈ ps, isFlat p.value = true) :
    write_amf0_body ps = .ok (flatBody ps) := by
  induction ps with
  | nil => rfl
  | cons p rest ih =>
    obtain ⟨k, v⟩ := p
    have hv : isFlat v = true := hfl ⟨k, v⟩ (by simp)
    have hrest : ∀ p ∈ rest, isFlat p.value = true := by
      intro q hq; exact hfl q (by simp [hq])
    simp only [write_amf0_body, write_value_flat v hv, bind_ok_eq, ih hrest,
      flatBody, write_key_and_type]

theorem flatBody_cons_length (k : List Nat) (v : Amf0Value)
    (rest : List (Pair Amf0Value)) :
    (flatBody (⟨k, v⟩ :: rest)).length =
      4 + k.length + (encV v).length + (flatBody rest).length := by
  simp [flatBody, beBytes_length]
  omega

theorem length_le_flatBody (ps : List (Pair Amf0Value)) :
    ps.length ≤ (flatBody ps).length := by
  induction ps with
  | nil => simp [flatBody]
  | cons p rest ih =>
    obtain ⟨k, v⟩ := p
    rw [flatBody_cons_length]
    simp only [List.length_cons]
    omega

/-- Top-level loop correctness for read_amf0 (the outer loop of the source):
with the declared length equal to the buffer length minus 6 and the bytes at
the cursor holding the flat body of ps, the loop returns the accumulated
pairs followed by ps, stopping exactly at the end of the buffer. -/
theorem read_amf0_body (data : List Nat) (len : Nat)
    (hlen : len + 6 = data.length) :
    ∀ (ps acc : List (Pair Amf0Value)) (fuel pos : Nat),
      wfPairs ps = true →
      (∀ p ∈ ps, isFlat p.value = true) →
      data.drop pos = flatBody ps →
      22 ≤ pos →
      pos + (flatBody ps).length = data.length →
      ps.length + 1 ≤ fuel →
      read_amf0 fuel data pos len acc = .ok (acc ++ ps) := by
  intro ps
  induction ps with
  | nil =>
    intro acc fuel pos _ _ _ hpos22 hposlen hfuel
    cases fuel with
    | zero => omega
    | succ f =>
      have hc : pos - 6 = len := by
        simp only [flatBody, List.length_nil] at hposlen
        omega
      simp [read_amf0, hc]
  | cons p rest ih =>
    intro acc fuel pos hwf hfl hdrop hpos22 hposlen hfuel
    obtain ⟨k, v⟩ := p
    simp only [List.length_cons] at hfuel
    cases fuel with
    | zero => omega
    | succ f =>
      simp only [wfPairs, Bool.and_eq_true, decide_eq_true_eq] at hwf
      obtain ⟨⟨⟨hku, hkl⟩, hv⟩, hrest⟩ := hwf
      have hvfl : isFlat v = true := hfl ⟨k, v⟩ (by simp)
      have hrfl : ∀ q ∈ rest, isFlat q.value = true := by
        intro q hq; exact hfl q (by simp [hq])
      have heL := encV_len_pos v
      have hclen := flatBody_cons_length k v rest
      have hne : ¬ (pos - 6 = len) := by omega
      rw [show flatBody (⟨k, v⟩ :: rest) =
          beBytes 2 k.length ++ k ++ [v.type_] ++
            (encV v ++ ([0] ++ flatBody rest)) by
        simp [flatBody, List.append_assoc]] at hdrop
      have hposle : pos ≤ data.length := by omega
      obtain ⟨h1, h2, h3⟩ := read_key_and_type_step data k
        (encV v ++ ([0] ++ flatBody rest)) pos v.type_ hdrop hposle hku hkl
        (type_lt v)
      have hval := read_value_flat v hv hvfl data ([0] ++ flatBody rest)
        (pos + 3 + k.length) f h2 h3 (by omega)
      obtain ⟨_, h5, h6⟩ := readExact_step data (encV v) ([0] ++ flatBody rest)
        (pos + 3 + k.length) h2 h3
      rw [show ([0] : List Nat) = beBytes 1 0 from rfl] at h5
      obtain ⟨h7, h8, h9⟩ := readBE_step data (flatBody rest)
        (pos + 3 + k.length + (encV v).length) 1 0 h5 h6 (by norm_num)
      have hrec := ih (acc ++ [⟨k, v⟩]) f
        (pos + 3 + k.length + (encV v).length + 1) hrest hrfl h8 (by omega)
        (by omega) (by omega)
      simp only [read_amf0, if_neg hne, h1, bind_ok_eq, hval, h7, hrec]
      simp

theorem pure_eq {α : Type} (a : α) : (pure a : Except Panic α) = .ok a := rfl

theorem throw_eq {α : Type} (e : Panic) : (throw e : Except Panic α) = .error e := rfl

/-- readExact step with the width and the resulting position given as
separate arguments, so that literal positions stay literal when stepping
through the header. -/
theorem readExact_stepq (data chunk rest : List Nat) (pos n q : Nat)
    (hn : chunk.length = n) (hq : pos + n = q)
    (h : data.drop pos = chunk ++ rest) (hpos : pos ≤ data.length) :
    readExact data pos n = .ok (chunk, q) ∧ data.drop q = rest ∧
      q ≤ data.length := by
  subst hn; subst hq
  exact readExact_step data chunk rest pos h hpos

theorem readBE_chunkq (data chunk rest : List Nat) (pos n q : Nat)
    (hn : chunk.length = n) (hq : pos + n = q)
    (h : data.drop pos = chunk ++ rest) (hpos : pos ≤ data.length) :
    readBE data pos n = .ok (beVal chunk, q) ∧ data.drop q = rest ∧
      q ≤ data.length := by
  subst hn; subst hq
  exact readBE_chunk data chunk rest pos h hpos

theorem readBE_stepq (data rest : List Nat) (pos n w q : Nat)
    (hq : pos + n = q) (h : data.drop pos = beBytes n w ++ rest)
    (hpos : pos ≤ data.length) (hw : w < 256 ^ n) :
    readBE data pos n = .ok (w, q) ∧ data.drop q = rest ∧ q ≤ data.length := by
  subst hq
  exact readBE_step data rest pos n w h hpos hw

/-- The bytes solWriteAmf0 produces, once the body writer has succeeded: the
header with the patched length field (total length minus 6, which is 16 plus
the root-name length plus the body length), the root-name record, the four
version bytes 0 0 0 0, then the body. -/
theorem solWriteAmf0_eq (rootName : List Nat) (pairs : List (Pair Amf0Value))
    (body : List Nat) (hbody : write_amf0_body pairs = .ok body) :
    solWriteAmf0 rootName pairs = .ok
      (BF_MAGIC ++ beBytes 4 (16 + rootName.length + body.length) ++
        TCSO_MAGIC ++ TAIL_MAGIC ++ beBytes 2 rootName.length ++ rootName ++
        [0, 0, 0, 0] ++ body) := by
  have hbe0 : beBytes 4 0 = [0, 0, 0, 0] := rfl
  have hlen : (BF_MAGIC ++ [0, 0, 0, 0] ++ TCSO_MAGIC ++ TAIL_MAGIC ++
      beBytes 2 rootName.length ++ rootName ++ [0, 0, 0] ++ [0] ++ body).length =
      22 + rootName.length + body.length := by
    simp [BF_MAGIC, TCSO_MAGIC, TAIL_MAGIC, beBytes_length]
    omega
  simp only [solWriteAmf0, hbody, bind_ok_eq, patchU32, hbe0, hlen]
  have h16 : 22 + rootName.length + body.length - 6 =
      16 + rootName.length + body.length := by omega
  rw [h16]
  simp [BF_MAGIC, TCSO_MAGIC, TAIL_MAGIC, List.append_assoc]

/-- Full evaluation of readSol on a well-shaped header: the result depends
on the version blob only through its final byte, which selects the Amf0
loop, the Amf3 delegation, or the UnknownVersion panic. -/
theorem readSol_split (data L name rest : List Nat) (b0 b1 b2 v : Nat)
    (hdata : data = BF_MAGIC ++ L ++ TCSO_MAGIC ++ TAIL_MAGIC ++
      beBytes 2 name.length ++ name ++ [b0, b1, b2, v] ++ rest)
    (hL : L.length = 4) (hname : utf8Valid name = true)
    (hnl : name.length ≤ 65535) :
    readSol data =
      if v = 0 then
        (read_amf0 (data.length + 1) data (22 + name.length) (beVal L) []).map
          (fun pairs => SolVariantE.amf0 (beVal L) name pairs)
      else if v = 3 then
        .ok (.amf3 (beVal L) name (22 + name.length) rest)
      else .error Panic.unknownVersion := by
  have h0 : data.drop 0 = BF_MAGIC ++ (L ++ (TCSO_MAGIC ++ (TAIL_MAGIC ++
      (beBytes 2 name.length ++ (name ++ ([b0, b1, b2, v] ++ rest)))))) := by
    simp [hdata, List.append_assoc]
  obtain ⟨e1, d1, p1⟩ := readExact_stepq data BF_MAGIC _ 0 2 2 rfl rfl h0
    (Nat.zero_le _)
  obtain ⟨e2, d2, p2⟩ := readBE_chunkq data L _ 2 4 6 hL rfl d1 p1
  obtain ⟨e3, d3, p3⟩ := readExact_stepq data TCSO_MAGIC _ 6 4 10 rfl rfl d2 p2
  obtain ⟨e4, d4, p4⟩ := readExact_stepq data TAIL_MAGIC _ 10 6 16 rfl rfl d3 p3
  obtain ⟨e5, d5, p5⟩ := readBE_stepq data _ 16 2 name.length 18 rfl d4 p4
    (by norm_num; omega)
  obtain ⟨e6, d6, p6⟩ := readExact_stepq data name _ 18 name.length
    (18 + name.length) rfl rfl d5 p5
  obtain ⟨e7, d7, p7⟩ := readExact_stepq data [b0, b1, b2, v] rest
    (18 + name.length) 4 (22 + name.length) rfl (by omega) d6 p6
  simp only [readSol, e1, bind_ok_eq, pure_eq, throw_eq, e2, e3, e4, e5, e6, e7,
    hname, amf_ver_spec, List.getD_cons_succ, List.getD_cons_zero,
    eq_self_iff_true, if_true, ite_true]
  by_cases hv0 : v = 0
  · subst hv0
    simp
  · by_cases hv3 : v = 3
    · subst hv3
      simp [d7]
    · simp [hv0, hv3]

theorem except_bind_ok {α β : Type} (a : α) (f : α → Except Panic β) :
    Except.bind (Except.ok a : Except Panic α) f = f a := rfl

/-- C1 (amended): for a document whose values are all encodable AMF0
variants (Number, Boolean, String; the Object encoder arm is todo!() in the
source, so Object is excluded), whose keys, strings and root name are valid
UTF-8 fitting 16-bit lengths, and whose encoding keeps the 32-bit length
field below 2 ^ 32, decoding the bytes produced by the writer yields the
Amf0 document with the same root name and the same pair list in the same
order, with the declared length set to the patched field value. -/
theorem c1_decode_encode_roundtrip (rootName : List Nat)
    (pairs : List (Pair Amf0Value))
    (hrn : utf8Valid rootName = true) (hrnl : rootName.length ≤ 65535)
    (hwf : wfPairs pairs = true)
    (hfl : ∀ p ∈ pairs, isFlat p.value = true)
    (hsize : 16 + rootName.length + (flatBody pairs).length < 2 ^ 32) :
    (solWriteAmf0 rootName pairs).bind readSol =
      .ok (.amf0 (16 + rootName.length + (flatBody pairs).length)
        rootName pairs) := by
  have hbody := write_amf0_body_flat pairs hfl
  rw [solWriteAmf0_eq rootName pairs (flatBody pairs) hbody, except_bind_ok]
  rw [readSol_split _ (beBytes 4 (16 + rootName.length + (flatBody pairs).length))
    rootName (flatBody pairs) 0 0 0 0 rfl (beBytes_length 4 _) hrn hrnl]
  rw [if_pos rfl]
  have hbeVal : beVal (beBytes 4 (16 + rootName.length + (flatBody pairs).length)) =
      16 + rootName.length + (flatBody pairs).length := by
    rw [beVal_beBytes]
    exact Nat.mod_eq_of_lt (by norm_num at hsize ⊢; omega)
  rw [hbeVal]
  have hplen : (BF_MAGIC ++ beBytes 4 (16 + rootName.length + (flatBody pairs).length) ++
      TCSO_MAGIC ++ TAIL_MAGIC ++ beBytes 2 rootName.length ++ rootName ++
      [0, 0, 0, 0]).length = 22 + rootName.length := by
    simp [BF_MAGIC, TCSO_MAGIC, TAIL_MAGIC, beBytes_length]
    omega
  have hdatalen : (BF_MAGIC ++ beBytes 4 (16 + rootName.length + (flatBody pairs).length) ++
      TCSO_MAGIC ++ TAIL_MAGIC ++ beBytes 2 rootName.length ++ rootName ++
      [0, 0, 0, 0] ++ flatBody pairs).length =
      22 + rootName.length + (flatBody pairs).length := by
    rw [List.length_append, hplen]
  have hdp : (BF_MAGIC ++ beBytes 4 (16 + rootName.length + (flatBody pairs).length) ++
      TCSO_MAGIC ++ TAIL_MAGIC ++ beBytes 2 rootName.length ++ rootName ++
      [0, 0, 0, 0] ++ flatBody pairs).drop (22 + rootName.length) =
      flatBody pairs := by
    rw [← hplen, List.drop_left]
  have hfb := length_le_flatBody pairs
  have hrec := read_amf0_body _ (16 + rootName.length + (flatBody pairs).length)
    (by omega) pairs []
    ((BF_MAGIC ++ beBytes 4 (16 + rootName.length + (flatBody pairs).length) ++
      TCSO_MAGIC ++ TAIL_MAGIC ++ beBytes 2 rootName.length ++ rootName ++
      [0, 0, 0, 0] ++ flatBody pairs).length + 1)
    (22 + rootName.length) hwf hfl hdp (by omega) (by omega) (by omega)
  rw [hrec, map_ok_eq, List.nil_append]

/-- C1 counterexample: the claim as frozen also covers Object values, but
the source encoder hits the todo!() panic on any Object value, so no byte
stream is produced at all for such a document. -/
theorem c1_counterexample :
    solWriteAmf0 [120] [⟨[111], Amf0Value.object []⟩] =
      .error Panic.todoObject := rfl

/-- C1 witness: the minimal document (root name x, single pair n mapped to
the number 3.5, bit pattern 0x400C000000000000) round-trips. -/
theorem c1_witness :
    (utf8Valid [120] = true ∧ ([120] : List Nat).length ≤ 65535 ∧
      wfPairs [⟨[110], Amf0Value.num 4614500748984041472⟩] = true ∧
      (∀ p ∈ [(⟨[110], Amf0Value.num 4614500748984041472⟩ : Pair Amf0Value)],
        isFlat p.value = true) ∧
      16 + ([120] : List Nat).length +
        (flatBody [⟨[110], Amf0Value.num 4614500748984041472⟩]).length < 2 ^ 32) ∧
    (solWriteAmf0 [120] [⟨[110], Amf0Value.num 4614500748984041472⟩]).bind readSol =
      .ok (.amf0 (16 + ([120] : List Nat).length +
          (flatBody [⟨[110], Amf0Value.num 4614500748984041472⟩]).length)
        [120] [⟨[110], Amf0Value.num 4614500748984041472⟩]) :=
  ⟨⟨by decide, by decide, by decide, by decide, by decide⟩,
    c1_decode_encode_roundtrip [120] [⟨[110], Amf0Value.num 4614500748984041472⟩]
      (by decide) (by decide) (by decide) (by decide) (by decide)⟩

/-- C2 (amended): the 32-bit value patched into the length field at offset 2
equals the total byte count of the output minus 6, which is 16 plus the
root-name length plus the value-list body length, not the body length alone;
for the minimal scenario (root name x, one pair n mapped to Number 3.5) the
field reads 30, not 13. -/
theorem c2_patched_length_field (rootName body : List Nat)
    (pairs : List (Pair Amf0Value))
    (hbody : write_amf0_body pairs = .ok body) :
    (solWriteAmf0 rootName pairs).map
        (fun bytes => ((bytes.drop 2).take 4, bytes.length)) =
      .ok (beBytes 4 (16 + rootName.length + body.length),
        22 + rootName.length + body.length) := by
  rw [solWriteAmf0_eq rootName pairs body hbody, map_ok_eq]
  have hd2 : (BF_MAGIC ++ beBytes 4 (16 + rootName.length + body.length) ++
      TCSO_MAGIC ++ TAIL_MAGIC ++ beBytes 2 rootName.length ++ rootName ++
      [0, 0, 0, 0] ++ body).drop 2 =
      beBytes 4 (16 + rootName.length + body.length) ++
        (TCSO_MAGIC ++ TAIL_MAGIC ++ beBytes 2 rootName.length ++ rootName ++
          [0, 0, 0, 0] ++ body) := by
    simp [BF_MAGIC, List.append_assoc]
  rw [hd2]
  have ht4 : (beBytes 4 (16 + rootName.length + body.length) ++
      (TCSO_MAGIC ++ TAIL_MAGIC ++ beBytes 2 rootName.length ++ rootName ++
        [0, 0, 0, 0] ++ body)).take 4 =
      beBytes 4 (16 + rootName.length + body.length) := by
    rw [← beBytes_length 4 (16 + rootName.length + body.length)]
    exact List.take_left _ _
  rw [ht4]
  have hlen : (BF_MAGIC ++ beBytes 4 (16 + rootName.length + body.length) ++
      TCSO_MAGIC ++ TAIL_MAGIC ++ beBytes 2 rootName.length ++ rootName ++
      [0, 0, 0, 0] ++ body).length = 22 + rootName.length + body.length := by
    simp [BF_MAGIC, TCSO_MAGIC, TAIL_MAGIC, beBytes_length]
    omega
  rw [hlen]

/-- C2 counterexample: on the spec scenario document the patched field holds
the big-endian bytes of 30 (total 36 bytes minus 6), not 13. -/
theorem c2_counterexample :
    (solWriteAmf0 [120] [⟨[110], Amf0Value.num 4614500748984041472⟩]).map
        (fun bytes => (bytes.drop 2).take 4) = .ok [0, 0, 0, 30] ∧
    beVal [0, 0, 0, 30] ≠ 13 := ⟨rfl, by decide⟩

/-- C2 witness: the amended statement evaluated on the scenario document
gives field bytes 0 0 0 30 and total length 36. -/
theorem c2_witness :
    write_amf0_body [⟨[110], Amf0Value.num 4614500748984041472⟩] =
      .ok (flatBody [⟨[110], Amf0Value.num 4614500748984041472⟩]) ∧
    (solWriteAmf0 [120] [⟨[110], Amf0Value.num 4614500748984041472⟩]).map
        (fun bytes => ((bytes.drop 2).take 4, bytes.length)) =
      .ok (beBytes 4 (16 + ([120] : List Nat).length +
          (flatBody [⟨[110], Amf0Value.num 4614500748984041472⟩]).length),
        22 + ([120] : List Nat).length +
          (flatBody [⟨[110], Amf0Value.num 4614500748984041472⟩]).length) :=
  ⟨rfl, c2_patched_length_field [120] _ _ rfl⟩

/-- C3: the claim and the spec require the encoder to write an Object value
recursively with the sentinel tag 9 after the last member, but the Object
arm of write_value is todo!(), an unimplemented stub that panics, so
encoding any document containing an Object value aborts instead of
producing that layout. Evaluations at the failing input. -/
theorem c3_object_encode_todo :
    write_value (Amf0Value.object [⟨[97], Amf0Value.bool true⟩]) =
      .error Panic.todoObject ∧
    solWriteAmf0 [120] [⟨[111, 98, 106],
        Amf0Value.object [⟨[97], Amf0Value.bool true⟩]⟩] =
      .error Panic.todoObject := ⟨rfl, rfl⟩

/-- C4 (amended): on every malformed input class the read path aborts
through a panic site (assert!, unwrap, panic!), modelled as an error holding
the Panic value of that site; no Err result is returned. One concrete input
per class: truncated buffer, bad magic, bad type marker, bad tail, invalid
UTF-8 root name, unknown version byte, unexpected value type tag. -/
theorem c4_panics_on_malformed :
    readSol [0] = .error Panic.eof ∧
    readSol [0, 0] = .error Panic.unsupportedFormat ∧
    readSol ([0, 191] ++ [0, 0, 0, 0] ++ [88, 88, 88, 88]) =
      .error Panic.malformedHeader ∧
    readSol ([0, 191] ++ [0, 0, 0, 13] ++ [84, 67, 83, 79] ++
      [0, 0, 0, 0, 0, 0]) = .error Panic.malformedHeader ∧
    readSol ([0, 191] ++ [0, 0, 0, 20] ++ [84, 67, 83, 79] ++
      [0, 4, 0, 0, 0, 0] ++ [0, 1] ++ [128]) = .error Panic.utf8 ∧
    readSol ([0, 191] ++ [0, 0, 0, 20] ++ [84, 67, 83, 79] ++
      [0, 4, 0, 0, 0, 0] ++ [0, 0] ++ [9, 9, 9, 7]) =
      .error Panic.unknownVersion ∧
    readSol ([0, 191] ++ [0, 0, 0, 17] ++ [84, 67, 83, 79] ++
      [0, 4, 0, 0, 0, 0] ++ [0, 0] ++ [0, 0, 0, 0] ++ [0, 0, 8]) =
      .error (Panic.unexpectedType 8) :=
  ⟨rfl, rfl, rfl, rfl, rfl, rfl, rfl⟩

/-- C4 counterexample: the claim says decode functions return a result value
on malformed input rather than aborting, but on a bad magic the source runs
assert! and aborts; in the embedding the outcome is the unsupportedFormat
panic, which models a process abort, not an Err return. -/
theorem c4_counterexample : readSol [1, 2] = .error Panic.unsupportedFormat := rfl

/-- C5: decoding a well-formed Object encoding holding k member pairs
followed by the sentinel record (empty key, tag 9 in the type-tag slot)
yields an Object holding exactly those k pairs, the sentinel is consumed and
never stored, and the cursor ends immediately after the sentinel byte. -/
theorem c5_object_sentinel (ps : List (Pair Amf0Value)) (data rest : List Nat)
    (pos fuel : Nat) (hwf : wfPairs ps = true)
    (h : data.drop pos = encPairs ps ++ [0, 0, 9] ++ rest)
    (hpos : pos ≤ data.length)
    (hfuel : (encPairs ps).length + 4 ≤ fuel) :
    read_value fuel 3 data pos =
      .ok (.object ps, pos + (encPairs ps).length + 3) := by
  cases fuel with
  | zero => omega
  | succ f =>
    have hb := (read_value_encV f).2 ps hwf [] data rest pos h hpos (by omega)
    simp [read_value, hb]

/-- C5 witness: the spec scenario, an Object holding the single pair a
mapped to Boolean true, encoded as 00 01 61 01 01 then the sentinel
00 00 09. -/
theorem c5_witness :
    (wfPairs [⟨[97], Amf0Value.bool true⟩] = true ∧
      ([0, 1, 97, 1, 1, 0, 0, 9] : List Nat).drop 0 =
        encPairs [⟨[97], Amf0Value.bool true⟩] ++ [0, 0, 9] ++ [] ∧
      (0 : Nat) ≤ ([0, 1, 97, 1, 1, 0, 0, 9] : List Nat).length ∧
      (encPairs [⟨[97], Amf0Value.bool true⟩]).length + 4 ≤ 9) ∧
    read_value 9 3 [0, 1, 97, 1, 1, 0, 0, 9] 0 =
      .ok (.object [⟨[97], Amf0Value.bool true⟩],
        0 + (encPairs [⟨[97], Amf0Value.bool true⟩]).length + 3) :=
  ⟨⟨by decide, by decide, by decide, by decide⟩,
    c5_object_sentinel [⟨[97], Amf0Value.bool true⟩] [0, 1, 97, 1, 1, 0, 0, 9]
      [] 0 9 (by decide) (by decide) (by decide) (by decide)⟩

/-- C6 (amended): a key or string of at most 65535 bytes encodes and
decodes back successfully, but there is no StringTooLong check anywhere:
write_value and write_key_and_type always succeed, emitting the byte length
truncated mod 2 ^ 16 in the 16-bit field while still writing every byte
(silent corruption for 65536 bytes or more, rather than an encode error). -/
theorem c6_no_string_too_long :
    (∀ s : List Nat, write_value (Amf0Value.str s) =
      .ok (beBytes 2 s.length ++ s)) ∧
    (∀ p : Pair Amf0Value, write_key_and_type p =
      beBytes 2 p.key.length ++ p.key ++ [p.value.type_]) ∧
    (∀ (s data rest : List Nat) (pos fuel : Nat), utf8Valid s = true →
      s.length ≤ 65535 → data.drop pos = beBytes 2 s.length ++ (s ++ rest) →
      pos ≤ data.length → 1 ≤ fuel →
      read_value fuel 2 data pos = .ok (Amf0Value.str s, pos + (2 + s.length))) := by
  refine ⟨fun s => rfl, fun p => rfl, ?_⟩
  intro s data rest pos fuel hu hl h hpos hfuel
  have h2 : data.drop pos = encV (Amf0Value.str s) ++ rest := by
    simpa [encV, List.append_assoc] using h
  have := read_value_flat (Amf0Value.str s) (by simp [wfV, hu, hl]) rfl data rest
    pos fuel h2 hpos hfuel
  simpa [Amf0Value.type_, encV, beBytes_length, Nat.add_assoc] using this

/-- C6 counterexample: a 65536-byte string does not fail with
StringTooLong at encode time; write_value succeeds and the emitted 16-bit
length field wraps to 00 00 while all 65536 bytes are written. -/
theorem c6_counterexample :
    write_value (Amf0Value.str (List.replicate 65536 97)) =
      .ok (beBytes 2 (List.replicate 65536 97).length ++
        List.replicate 65536 97) ∧
    beBytes 2 (List.replicate 65536 97).length = [0, 0] :=
  ⟨rfl, by rw [List.length_replicate]; rfl⟩

/-- C6 witness: a short string passes through the amended decode statement. -/
theorem c6_witness :
    (utf8Valid [104, 105] = true ∧ ([104, 105] : List Nat).length ≤ 65535 ∧
      ([0, 2, 104, 105] : List Nat).drop 0 =
        beBytes 2 ([104, 105] : List Nat).length ++ ([104, 105] ++ []) ∧
      (0 : Nat) ≤ ([0, 2, 104, 105] : List Nat).length ∧ (1 : Nat) ≤ 1) ∧
    read_value 1 2 [0, 2, 104, 105] 0 =
      .ok (Amf0Value.str [104, 105], 0 + (2 + ([104, 105] : List Nat).length)) :=
  ⟨⟨by decide, by decide, by decide, by decide, by decide⟩,
    c6_no_string_too_long.2.2 [104, 105] [0, 2, 104, 105] [] 0 1
      (by decide) (by decide) (by decide) (by decide) (by decide)⟩

/-- C7: a buffer whose first two bytes differ from the magic 00 BF fails at
the magic assert (unsupportedFormat); a buffer with correct magic and TCSO
type marker but an all-zero tail fails at the tail assert
(malformedHeader); in both cases the result is an error, never a document. -/
theorem c7_header_validation (a b : Nat) (restm restt L : List Nat)
    (hm : ¬ ([a, b] = BF_MAGIC)) (hL : L.length = 4) :
    readSol (a :: b :: restm) = .error Panic.unsupportedFormat ∧
    readSol (BF_MAGIC ++ L ++ TCSO_MAGIC ++ [0, 0, 0, 0, 0, 0] ++ restt) =
      .error Panic.malformedHeader := by
  constructor
  · have h0 : (a :: b :: restm).drop 0 = [a, b] ++ restm := rfl
    obtain ⟨e1, _, _⟩ := readExact_stepq (a :: b :: restm) [a, b] restm 0 2 2
      rfl rfl h0 (Nat.zero_le _)
    simp [readSol, e1, bind_ok_eq, bind_error_eq, throw_eq, hm]
  · have h0 : (BF_MAGIC ++ L ++ TCSO_MAGIC ++ [0, 0, 0, 0, 0, 0] ++ restt).drop 0 =
        BF_MAGIC ++ (L ++ (TCSO_MAGIC ++ ([0, 0, 0, 0, 0, 0] ++ restt))) := by
      simp [List.append_assoc]
    obtain ⟨e1, d1, p1⟩ := readExact_stepq _ BF_MAGIC _ 0 2 2 rfl rfl h0
      (Nat.zero_le _)
    obtain ⟨e2, d2, p2⟩ := readBE_chunkq _ L _ 2 4 6 hL rfl d1 p1
    obtain ⟨e3, d3, p3⟩ := readExact_stepq _ TCSO_MAGIC _ 6 4 10 rfl rfl d2 p2
    obtain ⟨e4, d4, p4⟩ := readExact_stepq _ [0, 0, 0, 0, 0, 0] restt 10 6 16
      rfl rfl d3 p3
    simp only [readSol, e1, bind_ok_eq, eq_self_iff_true, if_true, ite_true,
      pure_eq, e2, e3, e4]
    rw [if_neg (by decide : ¬ (([0, 0, 0, 0, 0, 0] : List Nat) = TAIL_MAGIC))]
    rfl

/-- C7 witness: magic 00 00 fails with unsupportedFormat and the all-zero
tail fails with malformedHeader on concrete buffers. -/
theorem c7_witness :
    readSol (0 :: 0 :: []) = .error Panic.unsupportedFormat ∧
    readSol (BF_MAGIC ++ [0, 0, 0, 0] ++ TCSO_MAGIC ++ [0, 0, 0, 0, 0, 0] ++ []) =
      .error Panic.malformedHeader :=
  c7_header_validation 0 0 [] [] [0, 0, 0, 0] (by decide) (by decide)

/-- C8: after the root name, read_from_file reads the 4-byte version blob
and dispatches on its final byte: 0 runs the in-core Amf0 value-list loop,
3 hands the declared length, root name, cursor and remaining bytes to the
external Amf3 decoder, and any other value panics with unknown version. -/
theorem c8_version_dispatch (data L name rest : List Nat) (b0 b1 b2 v : Nat)
    (hdata : data = BF_MAGIC ++ L ++ TCSO_MAGIC ++ TAIL_MAGIC ++
      beBytes 2 name.length ++ name ++ [b0, b1, b2, v] ++ rest)
    (hL : L.length = 4) (hname : utf8Valid name = true)
    (hnl : name.length ≤ 65535) :
    (v = 0 → readSol data =
      (read_amf0 (data.length + 1) data (22 + name.length) (beVal L) []).map
        (fun pairs => SolVariantE.amf0 (beVal L) name pairs)) ∧
    (v = 3 → readSol data =
      .ok (.amf3 (beVal L) name (22 + name.length) rest)) ∧
    (¬ v = 0 → ¬ v = 3 → readSol data = .error Panic.unknownVersion) := by
  have hs := readSol_split data L name rest b0 b1 b2 v hdata hL hname hnl
  refine ⟨?_, ?_, ?_⟩
  · intro h0
    subst h0
    simpa using hs
  · intro h3
    subst h3
    simpa using hs
  · intro h0 h3
    rw [hs, if_neg h0, if_neg h3]

/-- C8 witness: version byte 7 on an otherwise well-formed header fails
with the unknown version panic. -/
theorem c8_witness :
    readSol [0, 0xBF, 0, 0, 0, 0, 84, 67, 83, 79, 0, 4, 0, 0, 0, 0, 0, 0,
      9, 9, 9, 7] = .error Panic.unknownVersion :=
  (c8_version_dispatch _ [0, 0, 0, 0] [] [] 9 9 9 7 (by decide) (by decide)
    (by decide) (by decide)).2.2 (by decide) (by decide)

/-- Frame property of the Amf0 editor walk: when the walk succeeds, the
output has the same length and every pair whose key fails the filter is
returned unchanged at its position. -/
theorem ui_amf0_frame (ops : EditOps0) (fs : List Nat) :
    ∀ (ps qs : List (Pair Amf0Value)), ui_amf0 ops fs ps = .ok qs →
      qs.length = ps.length ∧
      ∀ (i : Nat) (h1 : i < ps.length) (h2 : i < qs.length),
        containsSub (ps.get ⟨i, h1⟩).key fs = false →
        qs.get ⟨i, h2⟩ = ps.get ⟨i, h1⟩ := by
  intro ps
  induction ps with
  | nil =>
    intro qs h
    simp only [ui_amf0] at h
    injection h with h
    subst h
    exact ⟨rfl, fun i h1 _ _ => absurd h1 (by simp)⟩
  | cons p rest ih =>
    intro qs h
    simp only [ui_amf0] at h
    by_cases hc : containsSub p.key fs
    · rw [if_neg (not_not_intro hc)] at h
      cases hv : editValue0 ops p.value with
      | error e => rw [hv, bind_error_eq] at h; exact Except.noConfusion h
      | ok v2 =>
        rw [hv, bind_ok_eq] at h
        cases hr : ui_amf0 ops fs rest with
        | error e => rw [hr, bind_error_eq] at h; exact Except.noConfusion h
        | ok rs =>
          rw [hr, bind_ok_eq] at h
          injection h with h
          subst h
          obtain ⟨ihlen, ihidx⟩ := ih rs hr
          refine ⟨by simp [ihlen], ?_⟩
          intro i h1 h2 hfilter
          cases i with
          | zero =>
            simp only [List.get] at hfilter
            rw [hc] at hfilter
            exact Bool.noConfusion hfilter
          | succ j =>
            simp only [List.get] at hfilter ⊢
            exact ihidx j (by simp only [List.length_cons] at h1; omega)
              (by simp only [List.length_cons] at h2; omega) hfilter
    · rw [if_pos hc] at h
      cases hr : ui_amf0 ops fs rest with
      | error e => rw [hr, map_error_eq] at h; exact Except.noConfusion h
      | ok rs =>
        rw [hr, map_ok_eq] at h
        injection h with h
        subst h
        obtain ⟨ihlen, ihidx⟩ := ih rs hr
        refine ⟨by simp [ihlen], ?_⟩
        intro i h1 h2 hfilter
        cases i with
        | zero => rfl
        | succ j =>
          simp only [List.get] at hfilter ⊢
          exact ihidx j (by simp only [List.length_cons] at h1; omega)
            (by simp only [List.length_cons] at h2; omega) hfilter

/-- A filter that rejects every key makes the Amf0 editor walk the
identity. -/
theorem ui_amf0_reject_all (ops : EditOps0) (fs : List Nat)
    (ps : List (Pair Amf0Value))
    (h : ∀ p ∈ ps, containsSub p.key fs = false) :
    ui_amf0 ops fs ps = .ok ps := by
  induction ps with
  | nil => rfl
  | cons p rest ih =>
    have hp : containsSub p.key fs = false := h p (by simp)
    have hr := ih (fun q hq => h q (by simp [hq]))
    simp [ui_amf0, hp, hr, map_ok_eq]

/-- Frame property of the Amf3 editor walk, same statement as the Amf0
side. -/
theorem ui_amf3_frame (ops : EditOps3) (fs : List Nat) :
    ∀ (ps qs : List (Pair Amf3Value)), ui_amf3 ops fs ps = .ok qs →
      qs.length = ps.length ∧
      ∀ (i : Nat) (h1 : i < ps.length) (h2 : i < qs.length),
        containsSub (ps.get ⟨i, h1⟩).key fs = false →
        qs.get ⟨i, h2⟩ = ps.get ⟨i, h1⟩ := by
  intro ps
  induction ps with
  | nil =>
    intro qs h
    simp only [ui_amf3] at h
    injection h with h
    subst h
    exact ⟨rfl, fun i h1 _ _ => absurd h1 (by simp)⟩
  | cons p rest ih =>
    intro qs h
    simp only [ui_amf3] at h
    by_cases hc : containsSub p.key fs
    · rw [if_neg (not_not_intro hc)] at h
      cases hv : editValue3 ops p.value with
      | error e => rw [hv, bind_error_eq] at h; exact Except.noConfusion h
      | ok v2 =>
        rw [hv, bind_ok_eq] at h
        cases hr : ui_amf3 ops fs rest with
        | error e => rw [hr, bind_error_eq] at h; exact Except.noConfusion h
        | ok rs =>
          rw [hr, bind_ok_eq] at h
          injection h with h
          subst h
          obtain ⟨ihlen, ihidx⟩ := ih rs hr
          refine ⟨by simp [ihlen], ?_⟩
          intro i h1 h2 hfilter
          cases i with
          | zero =>
            simp only [List.get] at hfilter
            rw [hc] at hfilter
            exact Bool.noConfusion hfilter
          | succ j =>
            simp only [List.get] at hfilter ⊢
            exact ihidx j (by simp only [List.length_cons] at h1; omega)
              (by simp only [List.length_cons] at h2; omega) hfilter
    · rw [if_pos hc] at h
      cases hr : ui_amf3 ops fs rest with
      | error e => rw [hr, map_error_eq] at h; exact Except.noConfusion h
      | ok rs =>
        rw [hr, map_ok_eq] at h
        injection h with h
        subst h
        obtain ⟨ihlen, ihidx⟩ := ih rs hr
        refine ⟨by simp [ihlen], ?_⟩
        intro i h1 h2 hfilter
        cases i with
        | zero => rfl
        | succ j =>
          simp only [List.get] at hfilter ⊢
          exact ihidx j (by simp only [List.length_cons] at h1; omega)
            (by simp only [List.length_cons] at h2; omega) hfilter

theorem ui_amf3_reject_all (ops : EditOps3) (fs : List Nat)
    (ps : List (Pair Amf3Value))
    (h : ∀ p ∈ ps, containsSub p.key fs = false) :
    ui_amf3 ops fs ps = .ok ps := by
  induction ps with
  | nil => rfl
  | cons p rest ih =>
    have hp : containsSub p.key fs = false := h p (by simp)
    have hr := ih (fun q hq => h q (by simp [hq]))
    simp [ui_amf3, hp, hr, map_ok_eq]

/-- C9: in both editor traversals only pairs whose key passes the substring
filter are visited; every excluded pair passes through unchanged at its
position with no pair dropped or reordered; and with a filter that rejects
every key the result is exactly the input list. -/
theorem c9_filter_traversal :
    (∀ (ops : EditOps0) (fs : List Nat) (ps qs : List (Pair Amf0Value)),
      ui_amf0 ops fs ps = .ok qs →
      qs.length = ps.length ∧
      ∀ (i : Nat) (h1 : i < ps.length) (h2 : i < qs.length),
        containsSub (ps.get ⟨i, h1⟩).key fs = false →
        qs.get ⟨i, h2⟩ = ps.get ⟨i, h1⟩) ∧
    (∀ (ops : EditOps0) (fs : List Nat) (ps : List (Pair Amf0Value)),
      (∀ p ∈ ps, containsSub p.key fs = false) → ui_amf0 ops fs ps = .ok ps) ∧
    (∀ (ops : EditOps3) (fs : List Nat) (ps qs : List (Pair Amf3Value)),
      ui_amf3 ops fs ps = .ok qs →
      qs.length = ps.length ∧
      ∀ (i : Nat) (h1 : i < ps.length) (h2 : i < qs.length),
        containsSub (ps.get ⟨i, h1⟩).key fs = false →
        qs.get ⟨i, h2⟩ = ps.get ⟨i, h1⟩) ∧
    (∀ (ops : EditOps3) (fs : List Nat) (ps : List (Pair Amf3Value)),
      (∀ p ∈ ps, containsSub p.key fs = false) → ui_amf3 ops fs ps = .ok ps) :=
  ⟨fun ops fs ps qs => ui_amf0_frame ops fs ps qs,
   fun ops fs ps => ui_amf0_reject_all ops fs ps,
   fun ops fs ps qs => ui_amf3_frame ops fs ps qs,
   fun ops fs ps => ui_amf3_reject_all ops fs ps⟩

/-- C9 witness: a filter string z rejects the single key a, and the edit
walk returns the input unchanged even though every widget would change its
slot. -/
theorem c9_witness :
    ui_amf0 ⟨fun k => k ++ [33], fun n => n + 1, fun b => !b, fun s => s ++ [33]⟩
      [122] [⟨[97], Amf0Value.bool true⟩] = .ok [⟨[97], Amf0Value.bool true⟩] :=
  c9_filter_traversal.2.1 _ [122] [⟨[97], Amf0Value.bool true⟩] (by decide)

theorem readExact_pos (data : List Nat) (pos n : Nat) (c : List Nat) (q : Nat)
    (h : readExact data pos n = .ok (c, q)) : q = pos + n := by
  unfold readExact at h
  by_cases hc : pos + n ≤ data.length
  · rw [if_pos hc] at h
    injection h with h
    rw [Prod.mk.injEq] at h
    obtain ⟨_, h2⟩ := h
    omega
  · rw [if_neg hc] at h
    exact Except.noConfusion h

theorem readBE_pos (data : List Nat) (pos n v q : Nat)
    (h : readBE data pos n = .ok (v, q)) : q = pos + n := by
  unfold readBE at h
  cases he : readExact data pos n with
  | error e => simp only [he, bind_error_eq] at h; exact Except.noConfusion h
  | ok x =>
    obtain ⟨c, q1⟩ := x
    simp only [he, bind_ok_eq] at h
    injection h with h
    rw [Prod.mk.injEq] at h
    obtain ⟨_, h2⟩ := h
    have := readExact_pos data pos n c q1 he
    omega

theorem read_kt_pos (data : List Nat) (pos : Nat) (k : List Nat) (t q : Nat)
    (h : read_key_and_type data pos = .ok ((k, t), q)) : pos ≤ q := by
  unfold read_key_and_type at h
  cases h1 : readBE data pos 2 with
  | error e => simp only [h1, bind_error_eq] at h; exact Except.noConfusion h
  | ok x1 =>
    obtain ⟨kl, q1⟩ := x1
    simp only [h1, bind_ok_eq] at h
    cases h2 : readExact data q1 kl with
    | error e => simp only [h2, bind_error_eq] at h; exact Except.noConfusion h
    | ok x2 =>
      obtain ⟨key, q2⟩ := x2
      simp only [h2, bind_ok_eq] at h
      by_cases hu : utf8Valid key = true
      · rw [if_pos hu] at h
        cases h3 : readBE data q2 1 with
        | error e => simp only [h3, bind_error_eq] at h; exact Except.noConfusion h
        | ok x3 =>
          obtain ⟨tv, q3⟩ := x3
          simp only [h3, bind_ok_eq] at h
          injection h with h
          rw [Prod.mk.injEq] at h
          obtain ⟨_, hq⟩ := h
          have e1 := readBE_pos data pos 2 kl q1 h1
          have e2 := readExact_pos data q1 kl key q2 h2
          have e3 := readBE_pos data q2 1 tv q3 h3
          omega
      · rw [if_neg hu] at h; exact Except.noConfusion h

/-- Cursor monotonicity of the value decoder: a successful read never moves
the cursor backwards. -/
theorem read_value_pos (fuel : Nat) :
    (∀ (t : Nat) (data : List Nat) (pos : Nat) (v : Amf0Value) (q : Nat),
      read_value fuel t data pos = .ok (v, q) → pos ≤ q) ∧
    (∀ (data : List Nat) (pos : Nat) (acc : List (Pair Amf0Value))
      (v : Amf0Value) (q : Nat),
      readObjPairs fuel data pos acc = .ok (v, q) → pos ≤ q) := by
  induction fuel with
  | zero =>
    constructor
    · intro t data pos v q h; exact Except.noConfusion h
    · intro data pos acc v q h; exact Except.noConfusion h
  | succ fuel ih =>
    constructor
    · intro t data pos v q h
      simp only [read_value] at h
      by_cases h0 : t = 0
      · rw [if_pos h0] at h
        cases hb : readBE data pos 8 with
        | error e => simp only [hb, bind_error_eq] at h; exact Except.noConfusion h
        | ok x =>
          obtain ⟨bits, q1⟩ := x
          simp only [hb, bind_ok_eq] at h
          injection h with h
          rw [Prod.mk.injEq] at h
          obtain ⟨_, hq⟩ := h
          have := readBE_pos data pos 8 bits q1 hb
          omega
      · rw [if_neg h0] at h
        by_cases h1 : t = 1
        · rw [if_pos h1] at h
          cases hb : readBE data pos 1 with
          | error e => simp only [hb, bind_error_eq] at h; exact Except.noConfusion h
          | ok x =>
            obtain ⟨m, q1⟩ := x
            simp only [hb, bind_ok_eq] at h
            injection h with h
            rw [Prod.mk.injEq] at h
            obtain ⟨_, hq⟩ := h
            have := readBE_pos data pos 1 m q1 hb
            omega
        · rw [if_neg h1] at h
          by_cases h2 : t = 2
          · rw [if_pos h2] at h
            cases hb : readBE data pos 2 with
            | error e => simp only [hb, bind_error_eq] at h; exact Except.noConfusion h
            | ok x =>
              obtain ⟨len, q1⟩ := x
              simp only [hb, bind_ok_eq] at h
              cases he : readExact data q1 len with
              | error e => simp only [he, bind_error_eq] at h; exact Except.noConfusion h
              | ok x2 =>
                obtain ⟨buf, q2⟩ := x2
                simp only [he, bind_ok_eq] at h
                by_cases hu : utf8Valid buf = true
                · rw [if_pos hu] at h
                  injection h with h
                  rw [Prod.mk.injEq] at h
                  obtain ⟨_, hq⟩ := h
                  have e1 := readBE_pos data pos 2 len q1 hb
                  have e2 := readExact_pos data q1 len buf q2 he
                  omega
                · rw [if_neg hu] at h; exact Except.noConfusion h
          · rw [if_neg h2] at h
            by_cases h3 : t = 3
            · rw [if_pos h3] at h
              exact ih.2 data pos [] v q h
            · rw [if_neg h3] at h; exact Except.noConfusion h
    · intro data pos acc v q h
      simp only [readObjPairs] at h
      cases hk : read_key_and_type data pos with
      | error e => simp only [hk, bind_error_eq] at h; exact Except.noConfusion h
      | ok x =>
        obtain ⟨⟨key, t⟩, q1⟩ := x
        simp only [hk, bind_ok_eq] at h
        have hp1 := read_kt_pos data pos key t q1 hk
        by_cases h9 : t = 9
        · rw [if_pos h9] at h
          injection h with h
          rw [Prod.mk.injEq] at h
          obtain ⟨_, hq⟩ := h
          omega
        · rw [if_neg h9] at h
          cases hv : read_value fuel t data q1 with
          | error e => simp only [hv, bind_error_eq] at h; exact Except.noConfusion h
          | ok x2 =>
            obtain ⟨v2, q2⟩ := x2
            simp only [hv, bind_ok_eq] at h
            have hp2 := ih.1 t data q1 v2 q2 hv
            have hp3 := ih.2 data q2 (acc ++ [⟨key, v2⟩]) v q h
            omega

theorem drop_congr (d1 d2 : List Nat) (s pos : Nat)
    (hs : d1.drop s = d2.drop s) (hpos : s ≤ pos) :
    d1.drop pos = d2.drop pos := by
  have h1 : pos = s + (pos - s) := by omega
  rw [h1, ← List.drop_drop, hs, List.drop_drop]

theorem readExact_frame (d1 d2 : List Nat) (s pos n : Nat)
    (hlen : d1.length = d2.length) (hs : d1.drop s = d2.drop s)
    (hpos : s ≤ pos) : readExact d1 pos n = readExact d2 pos n := by
  unfold readExact
  rw [hlen, drop_congr d1 d2 s pos hs hpos]

theorem readBE_frame (d1 d2 : List Nat) (s pos n : Nat)
    (hlen : d1.length = d2.length) (hs : d1.drop s = d2.drop s)
    (hpos : s ≤ pos) : readBE d1 pos n = readBE d2 pos n := by
  unfold readBE
  rw [readExact_frame d1 d2 s pos n hlen hs hpos]

theorem read_kt_frame (d1 d2 : List Nat) (s pos : Nat)
    (hlen : d1.length = d2.length) (hs : d1.drop s = d2.drop s)
    (hpos : s ≤ pos) :
    read_key_and_type d1 pos = read_key_and_type d2 pos := by
  unfold read_key_and_type
  rw [readBE_frame d1 d2 s pos 2 hlen hs hpos]
  cases hb : readBE d2 pos 2 with
  | error e => simp only [hb, bind_error_eq]
  | ok x =>
    obtain ⟨kl, q1⟩ := x
    have hq1 := readBE_pos d2 pos 2 kl q1 hb
    simp only [hb, bind_ok_eq]
    rw [readExact_frame d1 d2 s q1 kl hlen hs (by omega)]
    cases he : readExact d2 q1 kl with
    | error e => simp only [he, bind_error_eq]
    | ok x2 =>
      obtain ⟨key, q2⟩ := x2
      have hq2 := readExact_pos d2 q1 kl key q2 he
      simp only [he, bind_ok_eq]
      rw [readBE_frame d1 d2 s q2 1 hlen hs (by omega)]

/-- Frame property of the value decoder: on two buffers of equal length that
agree from position s on, decoding from any position at or after s gives the
same result. -/
theorem read_value_frame (d1 d2 : List Nat) (s : Nat)
    (hlen : d1.length = d2.length) (hs : d1.drop s = d2.drop s) :
    ∀ fuel : Nat,
      (∀ (t pos : Nat), s ≤ pos →
        read_value fuel t d1 pos = read_value fuel t d2 pos) ∧
      (∀ (pos : Nat) (acc : List (Pair Amf0Value)), s ≤ pos →
        readObjPairs fuel d1 pos acc = readObjPairs fuel d2 pos acc) := by
  intro fuel
  induction fuel with
  | zero => exact ⟨fun t pos _ => rfl, fun pos acc _ => rfl⟩
  | succ fuel ih =>
    constructor
    · intro t pos hpos
      simp only [read_value]
      by_cases h0 : t = 0
      · simp only [if_pos h0]
        rw [readBE_frame d1 d2 s pos 8 hlen hs hpos]
      · simp only [if_neg h0]
        by_cases h1 : t = 1
        · simp only [if_pos h1]
          rw [readBE_frame d1 d2 s pos 1 hlen hs hpos]
        · simp only [if_neg h1]
          by_cases h2 : t = 2
          · simp only [if_pos h2]
            rw [readBE_frame d1 d2 s pos 2 hlen hs hpos]
            cases hb : readBE d2 pos 2 with
            | error e => simp only [hb, bind_error_eq]
            | ok x =>
              obtain ⟨len, q1⟩ := x
              have hq1 := readBE_pos d2 pos 2 len q1 hb
              simp only [hb, bind_ok_eq]
              rw [readExact_frame d1 d2 s q1 len hlen hs (by omega)]
          · simp only [if_neg h2]
            by_cases h3 : t = 3
            · simp only [if_pos h3]
              exact ih.2 pos [] hpos
            · simp only [if_neg h3]
    · intro pos acc hpos
      simp only [readObjPairs]
      rw [read_kt_frame d1 d2 s pos hlen hs hpos]
      cases hk : read_key_and_type d2 pos with
      | error e => simp only [hk, bind_error_eq]
      | ok x =>
        obtain ⟨⟨key, t⟩, q1⟩ := x
        have hq1 := read_kt_pos d2 pos key t q1 hk
        simp only [hk, bind_ok_eq]
        by_cases h9 : t = 9
        · simp only [if_pos h9]
        · simp only [if_neg h9]
          rw [ih.1 t q1 (by omega)]
          cases hv : read_value fuel t d2 q1 with
          | error e => simp only [hv, bind_error_eq]
          | ok x2 =>
            obtain ⟨v2, q2⟩ := x2
            have hq2 := (read_value_pos fuel).1 t d2 q1 v2 q2 hv
            simp only [hv, bind_ok_eq]
            exact ih.2 q2 (acc ++ [⟨key, v2⟩]) (by omega)

/-- Frame property of the top-level loop, by the same argument. -/
theorem read_amf0_frame (d1 d2 : List Nat) (s : Nat)
    (hlen : d1.length = d2.length) (hs : d1.drop s = d2.drop s) :
    ∀ (fuel len pos : Nat) (acc : List (Pair Amf0Value)), s ≤ pos →
      read_amf0 fuel d1 pos len acc = read_amf0 fuel d2 pos len acc := by
  intro fuel
  induction fuel with
  | zero => intro len pos acc _; rfl
  | succ fuel ih =>
    intro len pos acc hpos
    simp only [read_amf0]
    by_cases hc : pos - 6 = len
    · simp only [if_pos hc]
    · simp only [if_neg hc]
      rw [read_kt_frame d1 d2 s pos hlen hs hpos]
      cases hk : read_key_and_type d2 pos with
      | error e => simp only [hk, bind_error_eq]
      | ok x =>
        obtain ⟨⟨key, t⟩, q1⟩ := x
        have hq1 := read_kt_pos d2 pos key t q1 hk
        simp only [hk, bind_ok_eq]
        rw [(read_value_frame d1 d2 s hlen hs fuel).1 t q1 (by omega)]
        cases hv : read_value fuel t d2 q1 with
        | error e => simp only [hv, bind_error_eq]
        | ok x2 =>
          obtain ⟨v2, q2⟩ := x2
          have hq2 := (read_value_pos fuel).1 t d2 q1 v2 q2 hv
          simp only [hv, bind_ok_eq]
          rw [readBE_frame d1 d2 s q2 1 hlen hs (by omega)]
          cases hb : readBE d2 q2 1 with
          | error e => simp only [hb, bind_error_eq]
          | ok x3 =>
            obtain ⟨pad, q3⟩ := x3
            have hq3 := readBE_pos d2 q2 1 pad q3 hb
            simp only [hb, bind_ok_eq]
            exact ih len q3 (acc ++ [⟨key, v2⟩]) (by omega)

/-- C10: the first three bytes of the 4-byte version block are never
validated (the zero-equality asserts in the source execute on the
still-zero-initialized buffer before the read), so decoding two inputs that
differ only in those three bytes and share a final version byte of 0 or 3
proceeds identically; and the writer always emits zeros for those three
bytes. -/
theorem c10_version_blob_ignored (L name rest : List Nat) (a b c v : Nat)
    (hL : L.length = 4) (hname : utf8Valid name = true)
    (hnl : name.length ≤ 65535) (hv : v = 0 ∨ v = 3) :
    readSol (BF_MAGIC ++ L ++ TCSO_MAGIC ++ TAIL_MAGIC ++
        beBytes 2 name.length ++ name ++ [a, b, c, v] ++ rest) =
      readSol (BF_MAGIC ++ L ++ TCSO_MAGIC ++ TAIL_MAGIC ++
        beBytes 2 name.length ++ name ++ [0, 0, 0, v] ++ rest) ∧
    (∀ (rootName : List Nat) (pairs : List (Pair Amf0Value)) (bytes : List Nat),
      solWriteAmf0 rootName pairs = .ok bytes →
      (bytes.drop (18 + rootName.length)).take 3 = [0, 0, 0]) := by
  constructor
  · have hlen : (BF_MAGIC ++ L ++ TCSO_MAGIC ++ TAIL_MAGIC ++
        beBytes 2 name.length ++ name ++ [a, b, c, v] ++ rest).length =
        (BF_MAGIC ++ L ++ TCSO_MAGIC ++ TAIL_MAGIC ++
        beBytes 2 name.length ++ name ++ [0, 0, 0, v] ++ rest).length := by
      simp [BF_MAGIC, TCSO_MAGIC, TAIL_MAGIC, beBytes_length]
    have hp1 : (BF_MAGIC ++ L ++ TCSO_MAGIC ++ TAIL_MAGIC ++
        beBytes 2 name.length ++ name ++ [a, b, c, v]).length =
        22 + name.length := by
      simp [BF_MAGIC, TCSO_MAGIC, TAIL_MAGIC, beBytes_length, hL]
      omega
    have hp2 : (BF_MAGIC ++ L ++ TCSO_MAGIC ++ TAIL_MAGIC ++
        beBytes 2 name.length ++ name ++ [0, 0, 0, v]).length =
        22 + name.length := by
      simp [BF_MAGIC, TCSO_MAGIC, TAIL_MAGIC, beBytes_length, hL]
      omega
    have hd1 : (BF_MAGIC ++ L ++ TCSO_MAGIC ++ TAIL_MAGIC ++
        beBytes 2 name.length ++ name ++ [a, b, c, v] ++ rest).drop
        (22 + name.length) = rest := by
      rw [← hp1]; exact List.drop_left _ _
    have hd2 : (BF_MAGIC ++ L ++ TCSO_MAGIC ++ TAIL_MAGIC ++
        beBytes 2 name.length ++ name ++ [0, 0, 0, v] ++ rest).drop
        (22 + name.length) = rest := by
      rw [← hp2]; exact List.drop_left _ _
    have hs : (BF_MAGIC ++ L ++ TCSO_MAGIC ++ TAIL_MAGIC ++
        beBytes 2 name.length ++ name ++ [a, b, c, v] ++ rest).drop
        (22 + name.length) =
        (BF_MAGIC ++ L ++ TCSO_MAGIC ++ TAIL_MAGIC ++
        beBytes 2 name.length ++ name ++ [0, 0, 0, v] ++ rest).drop
        (22 + name.length) := by rw [hd1, hd2]
    rw [readSol_split _ L name rest a b c v rfl hL hname hnl,
      readSol_split _ L name rest 0 0 0 v rfl hL hname hnl]
    rcases hv with hv | hv
    · subst hv
      simp only [reduceIte]
      rw [read_amf0_frame _ _ (22 + name.length) hlen hs
          ((BF_MAGIC ++ L ++ TCSO_MAGIC ++ TAIL_MAGIC ++
            beBytes 2 name.length ++ name ++ [a, b, c, 0] ++ rest).length + 1)
          (beVal L) (22 + name.length) [] (Nat.le_refl _)]
      rw [hlen]
    · subst hv
      norm_num
  · intro rootName pairs bytes h
    cases hb : write_amf0_body pairs with
    | error e =>
      unfold solWriteAmf0 at h
      rw [hb, bind_error_eq] at h
      exact Except.noConfusion h
    | ok body =>
      rw [solWriteAmf0_eq rootName pairs body hb] at h
      injection h with h
      subst h
      have hp : (BF_MAGIC ++ beBytes 4 (16 + rootName.length + body.length) ++
          TCSO_MAGIC ++ TAIL_MAGIC ++ beBytes 2 rootName.length ++
          rootName).length = 18 + rootName.length := by
        simp [BF_MAGIC, TCSO_MAGIC, TAIL_MAGIC, beBytes_length]
        omega
      have hstep : (BF_MAGIC ++ beBytes 4 (16 + rootName.length + body.length) ++
          TCSO_MAGIC ++ TAIL_MAGIC ++ beBytes 2 rootName.length ++ rootName ++
          [0, 0, 0, 0] ++ body).drop (18 + rootName.length) =
          [0, 0, 0, 0] ++ body := by
        rw [show BF_MAGIC ++ beBytes 4 (16 + rootName.length + body.length) ++
            TCSO_MAGIC ++ TAIL_MAGIC ++ beBytes 2 rootName.length ++ rootName ++
            [0, 0, 0, 0] ++ body =
            (BF_MAGIC ++ beBytes 4 (16 + rootName.length + body.length) ++
            TCSO_MAGIC ++ TAIL_MAGIC ++ beBytes 2 rootName.length ++ rootName) ++
            ([0, 0, 0, 0] ++ body) by simp [List.append_assoc]]
        rw [← hp]
        exact List.drop_left _ _
      rw [hstep]
      rfl

/-- C10 witness: two buffers differing only in the first three version-blob
bytes decode identically. -/
theorem c10_witness :
    readSol (BF_MAGIC ++ [0, 0, 0, 30] ++ TCSO_MAGIC ++ TAIL_MAGIC ++
        beBytes 2 (List.length ([] : List Nat)) ++ [] ++ [1, 2, 3, 0] ++ []) =
      readSol (BF_MAGIC ++ [0, 0, 0, 30] ++ TCSO_MAGIC ++ TAIL_MAGIC ++
        beBytes 2 (List.length ([] : List Nat)) ++ [] ++ [0, 0, 0, 0] ++ []) :=
  (c10_version_blob_ignored [0, 0, 0, 30] [] [] 1 2 3 0 (by decide) (by decide)
    (by decide) (Or.inl rfl)).1

end Soledit
